import Mathlib

/-!
Verification of the event-inventory / event-usage pipeline
(`refactor/generate_events_inventory.py` and `refactor/generate_event_usage.py`).

The Python source is shallowly embedded: every scanner below is a direct
transcription of the corresponding Python function, with Python lists as
`List`, Python strings as `String`, line indices as `Nat`, and signed depth
counters as `Int`.  Loops become structural recursion over the remaining
lines (with an explicit fuel bound where Python advances its index by a
computed amount).
-/

namespace EventsInventory

/-- Python `\s` on the relevant ASCII range. -/
def pySpace (c : Char) : Bool :=
  c = ' ' || c = '\t' || c = '\n' || c = '\r' || c = '\x0b' || c = '\x0c'

/-- Python `str.strip()` (whitespace from both ends). -/
def pyStrip (s : String) : String :=
  String.mk (((s.toList.dropWhile pySpace).reverse.dropWhile pySpace).reverse)

/-- Python `s.startswith(p)`. -/
def pyStartsWith (s p : String) : Bool :=
  p.toList.isPrefixOf s.toList

/-- Python `s.endswith(p)`. -/
def pyEndsWith (s p : String) : Bool :=
  p.toList.reverse.isPrefixOf s.toList.reverse

/-- Python `s[n:]` (character slicing). -/
def pyDrop (s : String) (n : Nat) : String :=
  String.mk (s.toList.drop n)

/-- Python `s[:-n]` on a string known to be at least `n` long. -/
def pyDropRight (s : String) (n : Nat) : String :=
  String.mk (s.toList.take (s.toList.length - n))

/-- `line.count("{") - line.count("}")` as a signed integer. -/
def braceNet (s : String) : Int :=
  (s.toList.count '{' : Int) - (s.toList.count '}' : Int)

/-- `line.count("(") - line.count(")")` as a signed integer. -/
def parenNet (s : String) : Int :=
  (s.toList.count '(' : Int) - (s.toList.count ')' : Int)

/-- Python `"{" in line`. -/
def hasBrace (s : String) : Bool :=
  s.toList.contains '{'

/-- `collect_leading_doc(lines, start_index)`: walk backward from
`start_index - 1`, collecting `///` lines (marker stripped), skipping blank
lines, stopping at the first other line; results in declaration order.
The argument of the recursion is the number of lines above the declaration
still to inspect, i.e. the current Python index plus one. -/
def collect_leading_doc (lines : List String) : Nat → List String
  | 0 => []
  | i + 1 =>
    let stripped := pyStrip (lines.getD i "")
    if pyStartsWith stripped "///" then
      collect_leading_doc lines i ++ [pyStrip (pyDrop stripped 3)]
    else if stripped = "" then
      collect_leading_doc lines i
    else
      []

/-- Loop body of `collect_block`: `rest` is the suffix of `lines` from the
current index, `start` the fallback end index (Python initializes
`end_index = start_index`), `idx` the current index. -/
def collectBlockGo (start : Nat) :
    List String → Nat → List String → Int → Bool → (List String × Nat)
  | [], _, buffer, _, _ => (buffer, start)
  | l :: rest, idx, buffer, depth, started =>
    let buffer := buffer ++ [l]
    let depth := if started then depth + braceNet l
      else if hasBrace l then depth + braceNet l else depth
    let started := started || hasBrace l
    if started && depth ≤ 0 then (buffer, idx)
    else collectBlockGo start rest (idx + 1) buffer depth started

/-- `collect_block(lines, start_index)`: balanced-brace span of the
declaration beginning at `start`; returns the joined, trimmed text and the
terminating line index. -/
def collect_block (lines : List String) (start : Nat) : String × Nat :=
  let r := collectBlockGo start (lines.drop start) start [] 0 false
  (pyStrip (String.intercalate "\n" r.1), r.2)

/-- Loop body of `collect_variant_definition` over the remaining lines. -/
def collectVariantDefGo :
    List String → Int → Int → Nat → List String → (List String × Nat)
  | [], _, _, consumed, buffer => (buffer, consumed)
  | l :: rest, brace, paren, consumed, buffer =>
    let buffer := buffer ++ [l]
    let brace := brace + braceNet l
    let paren := paren + parenNet l
    let consumed := consumed + 1
    if brace ≤ 0 && paren ≤ 0 && pyEndsWith (pyStrip l) "," then
      (buffer, consumed)
    else collectVariantDefGo rest brace paren consumed buffer

/-- `collect_variant_definition(lines, start_index)`: accumulate lines while
tracking brace and parenthesis depth; stop at the first line where both are
`≤ 0` and the trimmed line ends with a comma (or at end of input).  Returns
the joined trimmed definition and the number of lines consumed. -/
def collect_variant_definition (lines : List String) (start : Nat) :
    String × Nat :=
  let r := collectVariantDefGo (lines.drop start) 0 0 0 []
  (pyStrip (String.intercalate "\n" r.1), r.2)

def isUpperAZ (c : Char) : Bool := 'A' ≤ c && c ≤ 'Z'

def isWordChar (c : Char) : Bool :=
  ('A' ≤ c && c ≤ 'Z') || ('a' ≤ c && c ≤ 'z') || ('0' ≤ c && c ≤ '9') || c = '_'

/-- `re.match(r"([A-Z][A-Za-z0-9_]*)", stripped)`: anchored match of an
uppercase-led identifier, returning the (maximal) captured name. -/
def matchUpper (s : String) : Option String :=
  match s.toList with
  | [] => none
  | c :: rest =>
    if isUpperAZ c then some (String.mk (c :: rest.takeWhile isWordChar))
    else none

structure Variant where
  name : String
  start_line : Nat
  doc : List String
  definition : String
  deriving Repr, DecidableEq

/-- Loop body of `collect_variants`.  `fuel` bounds the number of loop
iterations (each Python iteration advances `idx` by at least one whenever the
current index is in range, so `end_index + 1 - start_index` iterations
suffice; on fuel exhaustion the accumulator is returned). -/
def collectVariantsGo (lines : List String) (endIdx : Nat) :
    Nat → Nat → Int → Bool → List String → List Variant → List Variant
  | 0, _, _, _, _, acc => acc
  | fuel + 1, idx, depth, inside, pending, acc =>
    if idx > endIdx then acc
    else
      let line := lines.getD idx ""
      let stripped := pyStrip line
      if !inside then
        if hasBrace line then
          collectVariantsGo lines endIdx fuel (idx + 1)
            (depth + braceNet line) true pending acc
        else
          collectVariantsGo lines endIdx fuel (idx + 1) depth false pending acc
      else if pyStartsWith stripped "///" then
        collectVariantsGo lines endIdx fuel (idx + 1)
          (depth + braceNet line) true
          (pending ++ [pyStrip (pyDrop stripped 3)]) acc
      else if pyStartsWith stripped "#[" then
        collectVariantsGo lines endIdx fuel (idx + 1)
          (depth + braceNet line) true (pending ++ [stripped]) acc
      else if depth == 1 && !(stripped == "") && !(pyStartsWith stripped "//") then
        match matchUpper stripped with
        | some name =>
          let vd := collect_variant_definition lines idx
          collectVariantsGo lines endIdx fuel (idx + vd.2)
            (depth + (((lines.drop idx).take vd.2).map braceNet).sum) true []
            (acc ++ [⟨name, idx + 1, pending, vd.1⟩])
        | none =>
          collectVariantsGo lines endIdx fuel (idx + 1)
            (depth + braceNet line) true pending acc
      else
        collectVariantsGo lines endIdx fuel (idx + 1)
          (depth + braceNet line) true pending acc

/-- `collect_variants(lines, start_index, end_index)`: scan from the
declaration line to the block's end line, entering the body at the first
brace; at depth 1 an uppercase-led line starts a variant whose definition is
cut out by `collect_variant_definition`.  Doc (`///`) and attribute (`#[`)
lines accumulate into a pending buffer attached to the next variant.  The
Python loop advances `idx` by at least one per iteration while `idx` is in
range, so `end_index + 1 - start_index` fuel is exact; Python diverges in the
(unreachable from `parse_file`) case `consumed = 0`, where the fuel model
instead stops. -/
def collect_variants (lines : List String) (start endIdx : Nat) :
    List Variant :=
  collectVariantsGo lines endIdx (endIdx + 1 - start) start 0 false [] []

/-- Anchored match of `RE_ENUM = pub\s+enum\s+([A-Za-z0-9_]+)` at the head of
the character list, returning the captured name.  All three quantified
pieces are greedy and followed by a disjoint character class, so maximal
munch is exact. -/
def matchEnumAt (cs : List Char) : Option String :=
  if ("pub".toList).isPrefixOf cs then
    let r1 := cs.drop 3
    if (r1.takeWhile pySpace).isEmpty then none
    else
      let r2 := r1.dropWhile pySpace
      if ("enum".toList).isPrefixOf r2 then
        let r3 := r2.drop 4
        if (r3.takeWhile pySpace).isEmpty then none
        else
          let r4 := r3.dropWhile pySpace
          let name := r4.takeWhile isWordChar
          if name.isEmpty then none else some (String.mk name)
      else none
  else none

/-- `RE_ENUM.search(line)`: leftmost match, scanning start positions left to
right. -/
def enumSearchGo : List Char → Option String
  | [] => none
  | c :: rest =>
    match matchEnumAt (c :: rest) with
    | some n => some n
    | none => enumSearchGo rest

def searchEnum (line : String) : Option String :=
  enumSearchGo line.toList

structure EnumItem where
  name : String
  module : String
  path : List String
  start_line : Nat
  doc : List String
  definition : String
  variants : List Variant
  deriving Repr, DecidableEq

/-- Python `str.removesuffix(".rs")`. -/
def removeSuffixRs (s : String) : String :=
  if pyEndsWith s ".rs" then pyDropRight s 3 else s

/-- `compute_module`: from the path's parts relative to the crate source
base, drop a final `mod.rs`, otherwise strip the `.rs` extension, and join
the nonempty parts with `::`. -/
def compute_module (parts0 : List String) : String :=
  let parts :=
    match parts0.getLast? with
    | some "mod.rs" => parts0.dropLast
    | some last => parts0.dropLast ++ [removeSuffixRs last]
    | none => parts0
  String.intercalate "::" (parts.filter (fun p => p ≠ ""))

/-- A source file as the extraction phase sees it.  Directory traversal and
path resolution are external collaborators (spec §1, §6): the walker hands
over the file's absolute posix string (used for the `/tests/` exclusion),
its parts relative to the working directory (stored in items), its parts
relative to the crate source base (input of `compute_module`), and its
content split into lines. -/
structure SrcFile where
  posix : String
  relParts : List String
  baseRel : List String
  lines : List String

/-- `parse_file`: every line matching `RE_ENUM` yields an `EnumItem` built
from the doc collector, block extractor and variant segmenter. -/
def parse_file (f : SrcFile) : List EnumItem :=
  (List.range f.lines.length).filterMap fun idx =>
    (searchEnum (f.lines.getD idx "")).map fun name =>
      let bk := collect_block f.lines idx
      { name := name
        module := compute_module f.baseRel
        path := f.relParts
        start_line := idx + 1
        doc := collect_leading_doc f.lines idx
        definition := bk.1
        variants := collect_variants f.lines idx bk.2 }

/-- Python `sub in s` on character lists. -/
def containsSub (pat : List Char) : List Char → Bool
  | [] => pat.isEmpty
  | c :: rest => pat.isPrefixOf (c :: rest) || containsSub pat rest

/-- The loop of `generate_events_inventory.main`: skip files whose posix
path contains `/tests/`, parse the rest in order. -/
def inventoryItems (files : List SrcFile) : List EnumItem :=
  (files.filter fun f => !(containsSub "/tests/".toList f.posix.toList)).flatMap
    parse_file

structure InventoryOut where
  base : String
  items : List EnumItem
  deriving Repr

/-- The emitted inventory: discovered items filtered to names ending in
`Event` (`enum_to_dict` is a field-for-field reshaping and is kept as the
record itself). -/
def inventory_main (base : String) (files : List SrcFile) : InventoryOut :=
  { base := base
    items := ((inventoryItems files).filter fun it =>
      pyEndsWith it.name "Event") }

end EventsInventory

namespace EventUsage

open EventsInventory

/-- Result of `subprocess.run` for the search tool. -/
structure ProcResult where
  returncode : Int
  stdout : String
  stderr : String

/-- The two Python exception classes `ripgrep` can raise: the explicit
`RuntimeError(proc.stderr)` and the `ValueError` of a failed 3-way unpack or
a failed `int()` conversion. -/
inductive PyErr where
  | runtimeError (msg : String)
  | valueError
  deriving Repr, DecidableEq

/-- Splitting a character list at every occurrence of `sep`; the result is
always nonempty. -/
def splitChar (sep : Char) : List Char → List (List Char)
  | [] => [[]]
  | c :: rest =>
    match splitChar sep rest with
    | [] => [[]]
    | g :: gs => if c = sep then [] :: g :: gs else (c :: g) :: gs

/-- Python `s.split(sep)` for a one-character separator. -/
def pySplitOn (s : String) (sep : Char) : List String :=
  (splitChar sep s.toList).map String.mk

/-- Python `line.split(":", 2)`. -/
def pySplitColon2 (s : String) : List String :=
  match pySplitOn s ':' with
  | [] => [s]
  | [a] => [a]
  | [a, b] => [a, b]
  | a :: b :: rest => [a, b, String.intercalate ":" rest]

/-- Python `str.splitlines()` for `\n`-separated text. -/
def pySplitlines (s : String) : List String :=
  if s = "" then []
  else
    let parts := pySplitOn s '\n'
    if parts.getLast? = some "" then parts.dropLast else parts

def decDigits : List Char → Option Nat
  | [] => none
  | cs =>
    if cs.all Char.isDigit then
      some (cs.foldl (fun a c => a * 10 + (c.toNat - 48)) 0)
    else none

/-- Python `int(s)` on decimal text (optional sign, surrounding whitespace),
`none` when `int` would raise `ValueError`. -/
def pyInt (s : String) : Option Int :=
  match (pyStrip s).toList with
  | '-' :: cs => (decDigits cs).map fun n => -(n : Int)
  | '+' :: cs => (decDigits cs).map fun n => (n : Int)
  | cs => (decDigits cs).map fun n => (n : Int)

/-- `Path(p).relative_to(root)` on slash-separated path strings: `none`
models the `ValueError` of a path outside the root. -/
def pyRelativeTo (root p : String) : Option String :=
  if p = root then some "."
  else if pyStartsWith p (root ++ "/") then
    some (pyDrop p (root.toList.length + 1))
  else none

/-- `Path(rel).parts` of a relative path (`Path(".").parts` is empty). -/
def relPartsOf (rel : String) : List String :=
  if rel = "." then [] else pySplitOn rel '/'

/-- The `for line in proc.stdout.splitlines()` loop of `ripgrep`: unpack
`path:line:text` (a short unpack raises `ValueError`), skip matches outside
the repository root and matches under `refactor/` or `target/`, convert the
line number (a bad number raises `ValueError` at the append). -/
def rgLoop (root : String) :
    List String → Except PyErr (List (String × Int × String))
  | [] => .ok []
  | l :: rest =>
    match pySplitColon2 l with
    | [pathStr, lineNo, text] =>
      match pyRelativeTo root pathStr with
      | none => rgLoop root rest
      | some rel =>
        let hd := (relPartsOf rel).headD ""
        if hd == "refactor" || hd == "target" then rgLoop root rest
        else
          match pyInt lineNo with
          | some n => (rgLoop root rest).map fun hits => (pathStr, n, text) :: hits
          | none => .error .valueError
    | _ => .error .valueError

/-- `ripgrep(pattern)` applied to the search tool's observed result: any
return code other than 0 (success) or 1 (no matches) raises
`RuntimeError(proc.stderr)`; blank output is the empty match list; otherwise
the output lines are parsed by `rgLoop`. -/
def ripgrep (root : String) (proc : ProcResult) :
    Except PyErr (List (String × Int × String)) :=
  if !(proc.returncode == 0 || proc.returncode == 1) then
    .error (.runtimeError proc.stderr)
  else if pyStrip proc.stdout = "" then .ok []
  else rgLoop root (pySplitlines proc.stdout)

/-- One inventory item as `generate_event_usage.main` reads it back from
the inventory artifact. -/
structure InvItem where
  module : String
  name : String
  path : String
  variants : List String
  deriving Repr, DecidableEq

/-- `Occurrence.to_dict()`.  Python's `path.relative_to(REPO_ROOT)` raises
on a path outside the root; `ripgrep` only returns paths inside the root, so
the partiality is kept visible as an `Option`. -/
structure OccDict where
  path : Option String
  line : Int
  line_text : String
  deriving Repr, DecidableEq

def occToDict (root : String) (h : String × Int × String) : OccDict :=
  { path := pyRelativeTo root h.1, line := h.2.1,
    line_text := pyStrip h.2.2 }

structure UsageRecord where
  domain : String
  event_type : String
  variant : String
  occurrences : List OccDict
  deriving Repr, DecidableEq

/-- `(REPO_ROOT / item["path"])`. -/
def pyJoinPath (root rel : String) : String := root ++ "/" ++ rel

/-- Body of the inner loop of `generate_event_usage.main` for one variant:
search for `Name::Variant`, drop matches whose resolved path is the
declaring file's resolved path, and emit one record (with an explicitly
empty occurrence list when no match survives). -/
def usageForVariant (root : String) (resolve : String → String)
    (search : String → ProcResult) (modulePath module name vname : String) :
    Except PyErr UsageRecord :=
  (ripgrep root (search (name ++ "::" ++ vname))).map fun ms =>
    let hits := ms.filter fun h => !(resolve h.1 == modulePath)
    if hits.isEmpty then
      { domain := module, event_type := name, variant := vname,
        occurrences := [] }
    else
      { domain := module, event_type := name, variant := vname,
        occurrences := hits.map (occToDict root) }

def variantsLoop (root : String) (resolve : String → String)
    (search : String → ProcResult) (modulePath module name : String) :
    List String → Except PyErr (List UsageRecord)
  | [] => .ok []
  | v :: rest => do
    let r ← usageForVariant root resolve search modulePath module name v
    let rs ← variantsLoop root resolve search modulePath module name rest
    return r :: rs

def itemsLoop (root : String) (resolve : String → String)
    (search : String → ProcResult) :
    List InvItem → Except PyErr (List UsageRecord)
  | [] => .ok []
  | it :: rest => do
    let rs ← variantsLoop root resolve search
      (resolve (pyJoinPath root it.path)) it.module it.name it.variants
    let more ← itemsLoop root resolve search rest
    return rs ++ more

/-- `generate_event_usage.main`: one record per (item, variant) of the
inventory, in traversal order; a raised error aborts the whole run before
anything is written. -/
def usage_main (root : String) (resolve : String → String)
    (search : String → ProcResult) (inventory : List InvItem) :
    Except PyErr (List UsageRecord) :=
  itemsLoop root resolve search inventory

/-- The inventory artifact as the usage phase reads it back: `module`,
`name`, the item's relative path rendered as a string, and the variant
names. -/
def itemToInv (it : EnumItem) : InvItem :=
  { module := it.module, name := it.name,
    path := String.intercalate "/" it.path,
    variants := it.variants.map fun v => v.name }

/-- The whole two-phase pipeline: build the inventory, then the usage
report from it.  Every stateful input (file tree, search tool, path
resolution) is an explicit argument. -/
def pipeline (base root : String) (resolve : String → String)
    (search : String → ProcResult) (files : List SrcFile) :
    InventoryOut × Except PyErr (List UsageRecord) :=
  let inv := inventory_main base files
  (inv, usage_main root resolve search (inv.items.map itemToInv))

end EventUsage

namespace EventsInventory

/-- Modelled from the spec: "Captured `definition` text for an item or
variant reproduces the exact original source span (whitespace-normalized per
line)" — the source span with every line individually stripped, joined by
newlines.  Used only to compare the spec's wording against the extractor's
actual whole-span strip. -/
def specPerLineNormalizedSpan (spanLines : List String) : String :=
  String.intercalate "\n" (spanLines.map pyStrip)

/-- A block whose last variant has no trailing comma, with code after the
block: the variant definition scanner runs past the block's closing line. -/
def demoNoCommaLines : List String :=
  ["pub enum FooEvent \x7b", "    A", "\x7d", "fn main() \x7b\x7d"]

/-- A simple one-variant block with indented body lines. -/
def demoIndentLines : List String :=
  ["pub enum FooEvent \x7b", "    A,", "\x7d"]

/-- A declaration at index 2 preceded by an attribute line, itself preceded
by a doc comment. -/
def demoAttrLines : List String :=
  ["/// doc", "#[derive(Debug)]", "pub enum XEvent \x7b", "\x7d"]

/-- A declaration at index 2 separated from its doc comment by a blank
line. -/
def demoBlankLines : List String :=
  ["/// doc", "", "pub enum YEvent \x7b", "\x7d"]

/-- A file declaring an enum that is structurally an event enum but whose
name lacks the `Event` suffix. -/
def demoStatusFile : SrcFile :=
  { posix := "/r/crates/events/src/status.rs"
    relParts := ["crates", "events", "src", "status.rs"]
    baseRel := ["status.rs"]
    lines := ["pub enum OrderStatus \x7b", "    Ok,", "\x7d"] }

/-- Sum of a per-line net counter over a list of lines. -/
def netSum (f : String → Int) (ls : List String) : Int :=
  (ls.map f).sum

/-- A variant of a conventionally rendered enum declaration: its name and
the source lines of its definition (first line included). -/
structure RustVariant where
  name : String
  defLines : List String

/-- What it means for a variant's rendered lines to be a conventional
variant definition: nonempty; the first line's stripped form begins with the
uppercase-led identifier `name`; no proper prefix of the lines satisfies the
definition scanner's stop condition (both nested counters `≤ 0` and a
trailing comma); the whole definition is brace-balanced with every prefix
nonnegative (nesting opens before it closes), parenthesis depth down to
`≤ 0` at the end, and a trailing separating comma on the last line.
Payload lines in between are arbitrary: any nesting of braces and
parentheses subject to these balance constraints. -/
def variantWF (v : RustVariant) : Prop :=
  v.defLines ≠ [] ∧
  matchUpper (pyStrip (v.defLines.headD "")) = some v.name ∧
  (∀ j, j + 1 < v.defLines.length →
    ¬(netSum braceNet (v.defLines.take (j + 1)) ≤ 0 ∧
      netSum parenNet (v.defLines.take (j + 1)) ≤ 0 ∧
      pyEndsWith (pyStrip (v.defLines.getD j "")) "," = true)) ∧
  netSum braceNet v.defLines = 0 ∧
  netSum parenNet v.defLines ≤ 0 ∧
  pyEndsWith (pyStrip ((v.defLines.getLast?).getD "")) "," = true ∧
  (∀ j < v.defLines.length, 0 ≤ netSum braceNet (v.defLines.take (j + 1)))

/-- The body lines of an enum: each variant's definition lines in
declaration order. -/
def renderVariants (vs : List RustVariant) : List String :=
  vs.flatMap fun v => v.defLines

/-- A conventionally rendered enum declaration: `pub enum Name {` header,
the variants' lines, a lone closing `}`. -/
def renderEnum (ename : String) (vs : List RustVariant) : List String :=
  ("pub enum " ++ ename ++ " \x7b") :: (renderVariants vs ++ ["\x7d"])

/-- The doc entries the scanners build from the `K` consecutive doc-comment
lines starting at line `idx`: each line stripped, the `///` marker dropped,
and the remainder stripped again, in top-to-bottom order. -/
def docRun (lines : List String) : Nat → Nat → List String
  | _, 0 => []
  | idx, K + 1 =>
    pyStrip (pyDrop (pyStrip (lines.getD idx "")) 3) ::
      docRun lines (idx + 1) K

/-- Two well-formed variants: a tuple-like one with nested parentheses and
a multi-line struct-like one with a nested brace body. -/
def demoNestedVs : List RustVariant :=
  [⟨"Created", ["Created(OrderId, Vec<(u8, u8)>),"]⟩,
   ⟨"Cancelled", ["Cancelled \x7b", "    reason: String,", "\x7d,"]⟩]

/-- An enum whose declaration and single variant each carry two doc
lines. -/
def demoDocLines : List String :=
  ["/// d1", "/// d2", "pub enum ZEvent \x7b", "    /// va", "    /// vb",
   "    V1,", "\x7d"]

/-- The item `parse_file` discovers in `demoStatusFile`. -/
def demoStatusItem : EnumItem :=
  { name := "OrderStatus"
    module := "status"
    path := ["crates", "events", "src", "status.rs"]
    start_line := 1
    doc := []
    definition := "pub enum OrderStatus \x7b\n    Ok,\n\x7d"
    variants := [⟨"Ok", 2, [], "Ok,"⟩] }

end EventsInventory

namespace EventUsage

/-- Output of the search tool in the `path:line:text` shape its contract
(spec §6) promises: three colon-separated fields with a numeric middle
field.  Under this well-formedness the parse loop cannot raise. -/
def wfSearchOutput (out : String) : Prop :=
  ∀ l ∈ pySplitlines out,
    (pySplitColon2 l).length = 3 ∧ pyInt ((pySplitColon2 l).getD 1 "") ≠ none

end EventUsage

open EventsInventory EventUsage

/-! ## Span lemmas for the block and variant-definition scanners -/

/-- The variant-definition scanner's buffer is the already-accumulated
buffer followed by the lines it visited, and `consumed` counts exactly the
visited lines. -/
theorem collectVariantDefGo_span :
    ∀ (ls : List String) (b p : Int) (c : Nat) (buf : List String),
    ∃ k, k ≤ ls.length ∧
      collectVariantDefGo ls b p c buf = (buf ++ ls.take k, c + k) := by
  intro ls
  induction ls with
  | nil =>
    intro b p c buf
    exact ⟨0, by simp [collectVariantDefGo]⟩
  | cons l rest ih =>
    intro b p c buf
    by_cases hcond :
        (decide (b + braceNet l ≤ 0) && decide (p + parenNet l ≤ 0) &&
          pyEndsWith (pyStrip l) ",") = true
    · refine ⟨1, by simp, ?_⟩
      simp only [collectVariantDefGo, hcond, if_true, List.take_succ_cons,
        List.take_zero]
    · obtain ⟨k, hk, heq⟩ := ih (b + braceNet l) (p + parenNet l) (c + 1)
        (buf ++ [l])
      refine ⟨k + 1, by simpa using Nat.succ_le_succ hk, ?_⟩
      simp only [collectVariantDefGo, hcond, if_false, Bool.false_eq_true,
        List.take_succ_cons]
      rw [heq]
      simp only [List.append_assoc, List.singleton_append, Prod.mk.injEq]
      exact ⟨trivial, by omega⟩

/-- `collect_variant_definition` returns the whole-stripped join of the
`consumed` lines starting at `start`, and `consumed` never runs past the end
of input. -/
theorem collect_variant_definition_span (lines : List String) (start : Nat) :
    (collect_variant_definition lines start).2 ≤ (lines.drop start).length ∧
    (collect_variant_definition lines start).1 =
      pyStrip (String.intercalate "\n"
        ((lines.drop start).take (collect_variant_definition lines start).2)) := by
  obtain ⟨k, hk, heq⟩ := collectVariantDefGo_span (lines.drop start) 0 0 0 []
  simp only [collect_variant_definition, heq, List.nil_append, Nat.zero_add]
  constructor
  · simpa using hk
  · trivial

/-- The block scanner's buffer is the accumulated buffer followed by a
prefix of the remaining lines. -/
theorem collectBlockGo_span :
    ∀ (ls : List String) (st idx : Nat) (buf : List String) (d : Int)
      (g : Bool),
    ∃ k, k ≤ ls.length ∧
      (collectBlockGo st ls idx buf d g).1 = buf ++ ls.take k := by
  intro ls
  induction ls with
  | nil =>
    intro st idx buf d g
    exact ⟨0, by simp [collectBlockGo]⟩
  | cons l rest ih =>
    intro st idx buf d g
    by_cases hcond :
        ((g || hasBrace l) &&
          decide ((if g then d + braceNet l
            else if hasBrace l then d + braceNet l else d) ≤ 0)) = true
    · refine ⟨1, by simp, ?_⟩
      simp only [collectBlockGo, hcond, if_true, List.take_succ_cons,
        List.take_zero]
    · obtain ⟨k, hk, heq⟩ := ih st (idx + 1) (buf ++ [l])
        (if g then d + braceNet l else if hasBrace l then d + braceNet l else d)
        (g || hasBrace l)
      refine ⟨k + 1, by simpa using Nat.succ_le_succ hk, ?_⟩
      simp only [collectBlockGo, hcond, if_false, Bool.false_eq_true,
        List.take_succ_cons]
      rw [heq]
      simp [List.append_assoc]

/-! ## C1 — variant definitions that lack a trailing comma -/

/-- C1, counterexample.  In `demoNoCommaLines` the block extractor reports
the block to end at line index 2 (the closing `}`), yet the last variant
`A`, which has no trailing comma, consumes 3 lines starting at index 1 —
through line index 3, past the block's closing line — and its captured
definition even contains the trailing `fn main() {}`.  The claim's
"never extend past the line index at which the Block Extractor reported the
block to end" is therefore false. -/
theorem claim_C1_counterexample :
    (collect_block demoNoCommaLines 0).2 = 2 ∧
    (collect_variant_definition demoNoCommaLines 1).2 = 3 ∧
    collect_variants demoNoCommaLines 0 2 =
      [⟨"A", 2, [], "A\n\x7d\nfn main() \x7b\x7d"⟩] ∧
    2 < 1 + (collect_variant_definition demoNoCommaLines 1).2 - 1 := by
  decide

/-- C1, amended: a variant definition with no trailing separating comma is
terminated by the end of the *input*, not by the block's closing line: the
consumed line count never extends past the end of the line list (but may
extend past the line index at which the block extractor reported the block
to end, as the counterexample shows). -/
theorem claim_C1 (lines : List String) (start : Nat) :
    (collect_variant_definition lines start).2 ≤ lines.length - start := by
  simpa using (collect_variant_definition_span lines start).1

/-! ## C3 — captured definition text versus the original span -/

/-- C3, counterexample.  For `demoIndentLines` the block's captured
definition keeps the interior line `    A,` with its leading indentation: it
is *not* the per-line whitespace-normalized span the claim describes. -/
theorem claim_C3_counterexample :
    (collect_block demoIndentLines 0).2 = 2 ∧
    (collect_block demoIndentLines 0).1 ≠
      specPerLineNormalizedSpan demoIndentLines := by
  decide

/-- C3, amended: the captured definition of an item is the contiguous run of
original source lines starting at the declaration, joined by newlines, with
only the whole span's leading and trailing whitespace stripped (interior
per-line whitespace preserved verbatim); a variant's captured definition is
likewise the whole-stripped join of exactly the `consumed` lines starting at
the variant's first line. -/
theorem claim_C3 (lines : List String) (start : Nat) :
    (∃ k, (collect_block lines start).1 =
      pyStrip (String.intercalate "\n" ((lines.drop start).take k))) ∧
    (collect_variant_definition lines start).1 =
      pyStrip (String.intercalate "\n"
        ((lines.drop start).take
          (collect_variant_definition lines start).2)) := by
  constructor
  · obtain ⟨k, hk, heq⟩ :=
      collectBlockGo_span (lines.drop start) start start [] 0 false
    exact ⟨k, by simp [collect_block, heq]⟩
  · exact (collect_variant_definition_span lines start).2


/-! ## C6 — only names with the `Event` suffix enter the inventory -/

/-- C6: a discovered declaration appears in the emitted inventory exactly
when its name ends with the qualifying `Event` suffix; in particular an item
named `OrderStatus` never appears, whatever its structure. -/
theorem claim_C6 (base : String) (files : List SrcFile) (it : EnumItem) :
    (it ∈ (inventory_main base files).items ↔
      it ∈ inventoryItems files ∧ pyEndsWith it.name "Event" = true) ∧
    (it.name = "OrderStatus" → it ∉ (inventory_main base files).items) := by
  have hiff : it ∈ (inventory_main base files).items ↔
      it ∈ inventoryItems files ∧ pyEndsWith it.name "Event" = true := by
    simp [inventory_main, List.mem_filter]
  refine ⟨hiff, fun hname hmem => ?_⟩
  have h2 := (hiff.1 hmem).2
  rw [hname] at h2
  exact absurd h2 (by decide)

/-- C6, witness: `demoStatusFile` declares `OrderStatus`, the item is
discovered by the extraction loop, yet it is absent from the emitted
inventory. -/
theorem claim_C6_witness :
    demoStatusItem ∈ inventoryItems [demoStatusFile] ∧
    demoStatusItem ∉ (inventory_main "crates/events/src" [demoStatusFile]).items := by
  exact ⟨by decide, (claim_C6 "crates/events/src" [demoStatusFile] demoStatusItem).2 rfl⟩

/-! ## C10 — attribute lines stop backward doc collection, blanks do not -/

/-- A line whose stripped form starts with `#[` does not start with `///`. -/
theorem attrNotDocMarker (s : String) (h : pyStartsWith s "#[" = true) :
    pyStartsWith s "///" = false := by
  unfold pyStartsWith at h ⊢
  cases hs : s.toList with
  | nil => rw [hs] at h; exact absurd h (by decide)
  | cons c t =>
    rw [hs] at h
    have hc : ('#' == c) = true := by
      by_contra hne
      have hf : ('#' == c) = false := by
        revert hne; cases ('#' == c) <;> simp
      rw [show ("#[".toList) = ['#', '['] from rfl] at h
      simp [List.isPrefixOf, hf] at h
    rw [show ("///".toList) = ['/', '/', '/'] from rfl, ← eq_of_beq hc]
    rfl

/-- One backward step of the doc collector, as an equation. -/
theorem collect_leading_doc_step (lines : List String) (i : Nat) :
    collect_leading_doc lines (i + 1) =
      (if pyStartsWith (pyStrip (lines.getD i "")) "///" then
        collect_leading_doc lines i ++
          [pyStrip (pyDrop (pyStrip (lines.getD i "")) 3)]
      else if pyStrip (lines.getD i "") = "" then collect_leading_doc lines i
      else []) := rfl

/-- C10: backward doc collection stops (with an empty result) at an
attribute line such as `#[derive(...)]` immediately above the declaration,
whatever stands above the attribute; a blank line immediately above the
declaration is skipped, collection continuing one line higher. -/
theorem claim_C10 (lines : List String) (s : Nat) :
    (pyStartsWith (pyStrip (lines.getD s "")) "#[" = true →
      collect_leading_doc lines (s + 1) = []) ∧
    (pyStrip (lines.getD s "") = "" →
      collect_leading_doc lines (s + 1) = collect_leading_doc lines s) := by
  constructor
  · intro h
    have h1 : pyStartsWith (pyStrip (lines.getD s "")) "///" = false :=
      attrNotDocMarker _ h
    have h2 : ¬(pyStrip (lines.getD s "") = "") := by
      intro he; rw [he] at h; exact absurd h (by decide)
    rw [collect_leading_doc_step, if_neg (by rw [h1]; exact Bool.false_ne_true),
      if_neg h2]
  · intro h
    rw [collect_leading_doc_step, h,
      if_neg (show ¬(pyStartsWith "" "///" = true) from by decide),
      if_pos rfl]

/-- C10, witness: in `demoAttrLines` the enum at index 2 gets no doc lines
although a doc comment stands above its attribute line; in `demoBlankLines`
the blank line under the doc comment is skipped and the doc line is still
attached. -/
theorem claim_C10_witness :
    collect_leading_doc demoAttrLines 2 = [] ∧
    (collect_leading_doc demoBlankLines 2 = collect_leading_doc demoBlankLines 1 ∧
      collect_leading_doc demoBlankLines 2 = ["doc"]) := by
  refine ⟨(claim_C10 demoAttrLines 1).1 (by decide),
    (claim_C10 demoBlankLines 1).2 (by decide), by decide⟩

/-! ## C4 — benign search outcomes versus hard failure -/

/-- The parse loop succeeds on well-formed search output lines. -/
theorem rgLoop_ok (root : String) :
    ∀ ls : List String,
    (∀ l ∈ ls, (pySplitColon2 l).length = 3 ∧
      pyInt ((pySplitColon2 l).getD 1 "") ≠ none) →
    ∃ hits, rgLoop root ls = .ok hits := by
  intro ls
  induction ls with
  | nil => exact fun _ => ⟨[], rfl⟩
  | cons l rest ih =>
    intro hwf
    obtain ⟨hlen, hint⟩ := hwf l (List.mem_cons_self l rest)
    obtain ⟨a, b, c, habc⟩ := List.length_eq_three.mp hlen
    obtain ⟨hits, hh⟩ := ih fun x hx => hwf x (List.mem_cons_of_mem l hx)
    rw [habc] at hint
    simp only [List.getD_cons_succ, List.getD_cons_zero] at hint
    cases hrel : pyRelativeTo root a with
    | none =>
      refine ⟨hits, ?_⟩
      simp only [rgLoop, habc, hrel, hh]
    | some rel =>
      by_cases hskip :
          (((relPartsOf rel).headD "" == "refactor") ||
            ((relPartsOf rel).headD "" == "target")) = true
      · refine ⟨hits, ?_⟩
        simp only [rgLoop, habc, hrel, hskip, if_true, hh]
      · cases hn : pyInt b with
        | none => exact absurd hn hint
        | some n =>
          refine ⟨(a, n, c) :: hits, ?_⟩
          simp only [rgLoop, habc, hrel, hskip, Bool.false_eq_true, if_false,
            hn, hh, Except.map]

/-- C4: the search invocation distinguishes exactly two benign outcomes
from failure.  (i) A termination status other than 0 (success) or 1 (no
matches) raises an error carrying the raw diagnostic (`stderr`); (ii) a
success or no-matches status with output in the search tool's contractual
shape yields a (possibly empty) match list; (iii) a failing status on the
very first searched variant aborts the whole run of the usage phase with
that diagnostic — no usage report value is produced. -/
theorem claim_C4 :
    (∀ (root : String) (proc : ProcResult),
      ¬(proc.returncode = 0 ∨ proc.returncode = 1) →
      ripgrep root proc = .error (.runtimeError proc.stderr)) ∧
    (∀ (root : String) (proc : ProcResult),
      (proc.returncode = 0 ∨ proc.returncode = 1) →
      wfSearchOutput proc.stdout →
      ∃ hits, ripgrep root proc = .ok hits) ∧
    (∀ (root : String) (resolve : String → String)
      (search : String → ProcResult) (it : InvItem) (rest : List InvItem)
      (v : String) (vs : List String),
      it.variants = v :: vs →
      ¬((search (it.name ++ "::" ++ v)).returncode = 0 ∨
        (search (it.name ++ "::" ++ v)).returncode = 1) →
      usage_main root resolve search (it :: rest) =
        .error (.runtimeError (search (it.name ++ "::" ++ v)).stderr)) := by
  have herr : ∀ (root : String) (proc : ProcResult),
      ¬(proc.returncode = 0 ∨ proc.returncode = 1) →
      ripgrep root proc = .error (.runtimeError proc.stderr) := by
    intro root proc h
    have hb : (proc.returncode == 0 || proc.returncode == 1) = false := by
      rcases Decidable.em (proc.returncode = 0) with h0 | h0
      · exact absurd (Or.inl h0) h
      · rcases Decidable.em (proc.returncode = 1) with h1 | h1
        · exact absurd (Or.inr h1) h
        · simp [h0, h1]
    simp [ripgrep, hb]
  refine ⟨herr, ?_, ?_⟩
  · intro root proc hrc hwf
    have hb : (proc.returncode == 0 || proc.returncode == 1) = true := by
      rcases hrc with h0 | h0 <;> simp [h0]
    by_cases hempty : pyStrip proc.stdout = ""
    · exact ⟨[], by simp [ripgrep, hb, hempty]⟩
    · obtain ⟨hits, hh⟩ := rgLoop_ok root (pySplitlines proc.stdout) hwf
      exact ⟨hits, by simp [ripgrep, hb, hempty, hh]⟩
  · intro root resolve search it rest v vs hvar hrc
    have h1 := herr root (search (it.name ++ "::" ++ v)) hrc
    simp [usage_main, itemsLoop, variantsLoop, hvar, usageForVariant, h1,
      Except.map, Bind.bind, Except.bind]

/-- C4, witness: a return code of 2 surfaces the raw diagnostic and aborts
the run; return code 0 with a contractual output line yields a match
list. -/
theorem claim_C4_witness :
    ripgrep "/r" ⟨2, "", "boom"⟩ = .error (.runtimeError "boom") ∧
    (∃ hits, ripgrep "/r" ⟨0, "/r/a.rs:3:use FooEvent::A;\n", ""⟩ = .ok hits) ∧
    usage_main "/r" (fun p => p) (fun _ => ⟨2, "", "boom"⟩)
      [⟨"m", "FooEvent", "a.rs", ["A"]⟩] = .error (.runtimeError "boom") := by
  refine ⟨claim_C4.1 "/r" ⟨2, "", "boom"⟩ (by decide),
    claim_C4.2.1 "/r" ⟨0, "/r/a.rs:3:use FooEvent::A;\n", ""⟩ (Or.inl rfl)
      (by unfold wfSearchOutput; decide),
    claim_C4.2.2 "/r" (fun p => p) (fun _ => ⟨2, "", "boom"⟩)
      ⟨"m", "FooEvent", "a.rs", ["A"]⟩ [] "A" [] rfl (by decide)⟩

/-! ## C5 — one usage record per inventory (type, variant) pair -/

/-- A successfully produced record carries the searched item's module, name
and variant. -/
theorem usageForVariant_fields (root : String) (resolve : String → String)
    (search : String → ProcResult) (mp module name v : String)
    (rec : UsageRecord)
    (h : usageForVariant root resolve search mp module name v = .ok rec) :
    rec.domain = module ∧ rec.event_type = name ∧ rec.variant = v := by
  unfold usageForVariant at h
  cases hrg : ripgrep root (search (name ++ "::" ++ v)) with
  | error e => rw [hrg] at h; simp [Except.map] at h
  | ok ms =>
    rw [hrg] at h
    simp only [Except.map, Except.ok.injEq] at h
    split at h <;> simp [← h]

/-- The inner loop produces one record per variant, in order, with the
item's name and the variant name. -/
theorem variantsLoop_pairs (root : String) (resolve : String → String)
    (search : String → ProcResult) (mp module name : String) :
    ∀ (vs : List String) (rs : List UsageRecord),
    variantsLoop root resolve search mp module name vs = .ok rs →
    rs.map (fun r => (r.event_type, r.variant)) = vs.map fun v => (name, v) := by
  intro vs
  induction vs with
  | nil =>
    intro rs h
    simp only [variantsLoop, Except.ok.injEq] at h
    rw [← h]
    rfl
  | cons v rest ih =>
    intro rs h
    cases hu : usageForVariant root resolve search mp module name v with
    | error e => rw [variantsLoop, hu] at h; simp [Bind.bind, Except.bind] at h
    | ok r =>
      cases hv : variantsLoop root resolve search mp module name rest with
      | error e =>
        rw [variantsLoop, hu, hv] at h
        simp [Bind.bind, Except.bind] at h
      | ok rs2 =>
        rw [variantsLoop, hu, hv] at h
        simp only [Bind.bind, Except.bind, pure, Except.pure,
          Except.ok.injEq] at h
        obtain ⟨_, hname, hvar⟩ := usageForVariant_fields root resolve search
          mp module name v r hu
        rw [← h]
        simp [hname, hvar, ih rs2 hv]

/-- The outer loop concatenates the per-item record runs in inventory
order. -/
theorem itemsLoop_pairs (root : String) (resolve : String → String)
    (search : String → ProcResult) :
    ∀ (inv : List InvItem) (rs : List UsageRecord),
    itemsLoop root resolve search inv = .ok rs →
    rs.map (fun r => (r.event_type, r.variant)) =
      inv.flatMap fun it => it.variants.map fun v => (it.name, v) := by
  intro inv
  induction inv with
  | nil =>
    intro rs h
    simp only [itemsLoop, Except.ok.injEq] at h
    rw [← h]
    rfl
  | cons it rest ih =>
    intro rs h
    cases hv : variantsLoop root resolve search
        (resolve (pyJoinPath root it.path)) it.module it.name it.variants with
    | error e => rw [itemsLoop, hv] at h; simp [Bind.bind, Except.bind] at h
    | ok rs1 =>
      cases hr : itemsLoop root resolve search rest with
      | error e =>
        rw [itemsLoop, hv, hr] at h
        simp [Bind.bind, Except.bind] at h
      | ok rs2 =>
        rw [itemsLoop, hv, hr] at h
        simp only [Bind.bind, Except.bind, pure, Except.pure,
          Except.ok.injEq] at h
        rw [← h]
        simp [variantsLoop_pairs root resolve search _ _ _ _ rs1 hv, ih rs2 hr]

/-- C5: when the usage phase completes, its report contains exactly one
record per (event type, variant) pair of the inventory, in inventory
traversal order — variants with no surviving match included (their record
carries an empty occurrence list rather than being omitted). -/
theorem claim_C5 (root : String) (resolve : String → String)
    (search : String → ProcResult) (inventory : List InvItem)
    (report : List UsageRecord)
    (h : usage_main root resolve search inventory = .ok report) :
    report.map (fun r => (r.event_type, r.variant)) =
      inventory.flatMap fun it => it.variants.map fun v => (it.name, v) := by
  exact itemsLoop_pairs root resolve search inventory report h

/-- C5, witness: a one-item inventory with variants `A` and `B` and a
search tool reporting "no matches" everywhere produces exactly the records
`(FooEvent, A)` and `(FooEvent, B)`, both with empty occurrence lists. -/
theorem claim_C5_witness :
    usage_main "/r" (fun p => p) (fun _ => ⟨1, "", ""⟩)
      [⟨"m", "FooEvent", "a.rs", ["A", "B"]⟩] =
      .ok [⟨"m", "FooEvent", "A", []⟩, ⟨"m", "FooEvent", "B", []⟩] ∧
    ([(⟨"m", "FooEvent", "A", []⟩ : UsageRecord),
      ⟨"m", "FooEvent", "B", []⟩].map fun r => (r.event_type, r.variant)) =
      [⟨"m", "FooEvent", "a.rs", ["A", "B"]⟩].flatMap
        (fun it : InvItem => it.variants.map fun v => (it.name, v)) := by
  exact ⟨rfl, claim_C5 "/r" (fun p => p) (fun _ => ⟨1, "", ""⟩)
    [⟨"m", "FooEvent", "a.rs", ["A", "B"]⟩]
    [⟨"m", "FooEvent", "A", []⟩, ⟨"m", "FooEvent", "B", []⟩] rfl⟩

/-! ## C8 — definition-site matches never count as usage -/

/-- The occurrences of a produced record are exactly the search matches
whose resolved path differs from the declaring file's resolved path. -/
theorem usageForVariant_occurrences (root : String)
    (resolve : String → String) (search : String → ProcResult)
    (mp module name v : String) (ms : List (String × Int × String))
    (rec : UsageRecord)
    (hrg : ripgrep root (search (name ++ "::" ++ v)) = .ok ms)
    (h : usageForVariant root resolve search mp module name v = .ok rec) :
    rec.occurrences =
      (ms.filter fun hh => !(resolve hh.1 == mp)).map (occToDict root) := by
  unfold usageForVariant at h
  rw [hrg] at h
  simp only [Except.map, Except.ok.injEq] at h
  split at h
  case isTrue hemp =>
    have hnil : (ms.filter fun hh => !(resolve hh.1 == mp)) = [] := by
      simpa using hemp
    rw [← h, hnil]
    rfl
  case isFalse hemp => rw [← h]

/-- Within the inner loop, a variant all of whose search matches resolve to
the declaring file gets an empty occurrence list. -/
theorem variantsLoop_selfOnly (root : String) (resolve : String → String)
    (search : String → ProcResult) (mp module name v : String)
    (hall : ∀ ms, ripgrep root (search (name ++ "::" ++ v)) = .ok ms →
      ∀ hh ∈ ms, resolve hh.1 = mp) :
    ∀ (vs : List String) (rs : List UsageRecord),
    variantsLoop root resolve search mp module name vs = .ok rs →
    ∀ rec ∈ rs, rec.variant = v → rec.occurrences = [] := by
  intro vs
  induction vs with
  | nil =>
    intro rs h rec hrec _
    simp only [variantsLoop, Except.ok.injEq] at h
    rw [← h] at hrec
    exact absurd hrec (List.not_mem_nil rec)
  | cons v2 rest ih =>
    intro rs h rec hrec hrv
    cases hu : usageForVariant root resolve search mp module name v2 with
    | error e => rw [variantsLoop, hu] at h; simp [Bind.bind, Except.bind] at h
    | ok r =>
      cases hv : variantsLoop root resolve search mp module name rest with
      | error e =>
        rw [variantsLoop, hu, hv] at h
        simp [Bind.bind, Except.bind] at h
      | ok rs2 =>
        rw [variantsLoop, hu, hv] at h
        simp only [Bind.bind, Except.bind, pure, Except.pure,
          Except.ok.injEq] at h
        rw [← h] at hrec
        rcases List.mem_cons.mp hrec with hr | hr
        · subst hr
          obtain ⟨_, _, hvar⟩ := usageForVariant_fields root resolve search
            mp module name v2 rec hu
          rw [hrv] at hvar
          rw [← hvar] at hu
          cases hrg : ripgrep root (search (name ++ "::" ++ v)) with
          | error e =>
            rw [usageForVariant, hrg] at hu
            simp [Except.map] at hu
          | ok ms =>
            have hocc := usageForVariant_occurrences root resolve search
              mp module name v ms rec hrg hu
            have hnil : (ms.filter fun hh => !(resolve hh.1 == mp)) = [] := by
              apply List.filter_eq_nil_iff.mpr
              intro a ha
              have := hall ms hrg a ha
              simp [this]
            rw [hocc, hnil]
            rfl
        · exact ih rs2 hv rec hr hrv

/-- C8: (i) for every produced record, search matches whose resolved path
equals the declaring file's resolved path are discarded — the record's
occurrences are exactly the surviving matches, in order; (ii) consequently,
a variant whose qualified reference appears only in its own declaring file
yields a record with an empty occurrence list. -/
theorem claim_C8 :
    (∀ (root : String) (resolve : String → String)
      (search : String → ProcResult) (mp module name v : String)
      (ms : List (String × Int × String)) (rec : UsageRecord),
      ripgrep root (search (name ++ "::" ++ v)) = .ok ms →
      usageForVariant root resolve search mp module name v = .ok rec →
      rec.occurrences =
        (ms.filter fun hh => !(resolve hh.1 == mp)).map (occToDict root)) ∧
    (∀ (root : String) (resolve : String → String)
      (search : String → ProcResult) (it : InvItem) (v : String)
      (report : List UsageRecord),
      (∀ ms, ripgrep root (search (it.name ++ "::" ++ v)) = .ok ms →
        ∀ hh ∈ ms, resolve hh.1 = resolve (pyJoinPath root it.path)) →
      usage_main root resolve search [it] = .ok report →
      ∀ rec ∈ report, rec.variant = v → rec.occurrences = []) := by
  refine ⟨usageForVariant_occurrences, ?_⟩
  intro root resolve search it v report hall h rec hrec hrv
  unfold usage_main at h
  cases hv : variantsLoop root resolve search
      (resolve (pyJoinPath root it.path)) it.module it.name it.variants with
  | error e => rw [itemsLoop, hv] at h; simp [Bind.bind, Except.bind] at h
  | ok rs1 =>
    rw [itemsLoop, hv] at h
    simp only [itemsLoop, Bind.bind, Except.bind, pure, Except.pure,
      Except.ok.injEq, List.append_nil] at h
    rw [← h] at hrec
    exact variantsLoop_selfOnly root resolve search
      (resolve (pyJoinPath root it.path)) it.module it.name v hall
      it.variants rs1 hv rec hrec hrv

/-- C8, witness: the only search match for `FooEvent::A` lies in the
declaring file `a.rs` itself, and the emitted record's occurrence list is
empty. -/
theorem claim_C8_witness :
    usage_main "/r" (fun p => p) (fun _ => ⟨0, "/r/a.rs:3:FooEvent::A;\n", ""⟩)
      [⟨"m", "FooEvent", "a.rs", ["A"]⟩] =
      .ok [⟨"m", "FooEvent", "A", []⟩] ∧
    (⟨"m", "FooEvent", "A", []⟩ : UsageRecord).occurrences = [] := by
  refine ⟨rfl, ?_⟩
  refine claim_C8.2 "/r" (fun p => p)
    (fun _ => ⟨0, "/r/a.rs:3:FooEvent::A;\n", ""⟩)
    ⟨"m", "FooEvent", "a.rs", ["A"]⟩ "A" [⟨"m", "FooEvent", "A", []⟩]
    ?_ rfl ⟨"m", "FooEvent", "A", []⟩ (List.mem_singleton.mpr rfl) rfl
  intro ms hms hh hmem
  rw [show ripgrep "/r" ⟨0, "/r/a.rs:3:FooEvent::A;\n", ""⟩ =
      Except.ok [("/r/a.rs", (3 : Int), "FooEvent::A;")] from rfl] at hms
  injection hms with h1
  rw [← h1] at hmem
  rw [List.mem_singleton.mp hmem]
  rfl

/-! ## C9 — determinism of the two-phase pipeline -/

/-- C9: the whole two-phase pipeline is a pure function of its inputs — the
walked file tree, the search tool's responses, and path resolution.  Two
runs over equal inputs produce equal inventory and usage-report structures;
since each artifact's serialized bytes are a function of the structure
alone, the emitted artifacts are byte-identical. -/
theorem claim_C9 (base root : String) (resolve resolve2 : String → String)
    (search search2 : String → ProcResult) (files files2 : List SrcFile)
    (hfiles : files = files2) (hsearch : search = search2)
    (hresolve : resolve = resolve2) :
    pipeline base root resolve search files =
      pipeline base root resolve2 search2 files2 := by
  rw [hfiles, hsearch, hresolve]

/-- C9, witness: two runs over the demo file with a constant no-matches
search tool coincide. -/
theorem claim_C9_witness :
    pipeline "b" "/r" (fun p => p) (fun _ => ⟨1, "", ""⟩) [demoStatusFile] =
      pipeline "b" "/r" (fun p => p) (fun _ => ⟨1, "", ""⟩)
        [demoStatusFile] :=
  claim_C9 "b" "/r" (fun p => p) (fun p => p) (fun _ => ⟨1, "", ""⟩)
    (fun _ => ⟨1, "", ""⟩) [demoStatusFile] [demoStatusFile] rfl rfl rfl

/-! ## C7 — doc-comment runs attach exactly, in order -/

/-- One iteration of the variant segmenter, as an equation. -/
theorem collectVariantsGo_step (lines : List String) (endIdx : Nat)
    (fuel idx : Nat) (depth : Int) (inside : Bool) (pending : List String)
    (acc : List Variant) :
    collectVariantsGo lines endIdx (fuel + 1) idx depth inside pending acc =
      if idx > endIdx then acc
      else if !inside then
        (if hasBrace (lines.getD idx "") then
          collectVariantsGo lines endIdx fuel (idx + 1)
            (depth + braceNet (lines.getD idx "")) true pending acc
        else
          collectVariantsGo lines endIdx fuel (idx + 1) depth false pending
            acc)
      else if pyStartsWith (pyStrip (lines.getD idx "")) "///" then
        collectVariantsGo lines endIdx fuel (idx + 1)
          (depth + braceNet (lines.getD idx "")) true
          (pending ++ [pyStrip (pyDrop (pyStrip (lines.getD idx "")) 3)]) acc
      else if pyStartsWith (pyStrip (lines.getD idx "")) "#[" then
        collectVariantsGo lines endIdx fuel (idx + 1)
          (depth + braceNet (lines.getD idx "")) true
          (pending ++ [pyStrip (lines.getD idx "")]) acc
      else if depth == 1 && !(pyStrip (lines.getD idx "") == "") &&
          !(pyStartsWith (pyStrip (lines.getD idx "")) "//") then
        match matchUpper (pyStrip (lines.getD idx "")) with
        | some name =>
          collectVariantsGo lines endIdx fuel
            (idx + (collect_variant_definition lines idx).2)
            (depth + (((lines.drop idx).take
              (collect_variant_definition lines idx).2).map braceNet).sum)
            true []
            (acc ++ [⟨name, idx + 1, pending,
              (collect_variant_definition lines idx).1⟩])
        | none =>
          collectVariantsGo lines endIdx fuel (idx + 1)
            (depth + braceNet (lines.getD idx "")) true pending acc
      else
        collectVariantsGo lines endIdx fuel (idx + 1)
          (depth + braceNet (lines.getD idx "")) true pending acc := rfl

/-- The segmenter only ever appends to its accumulator. -/
theorem collectVariantsGo_acc (lines : List String) (endIdx : Nat) :
    ∀ (fuel idx : Nat) (depth : Int) (inside : Bool)
      (pending : List String) (acc : List Variant),
    ∃ t, collectVariantsGo lines endIdx fuel idx depth inside pending acc =
      acc ++ t := by
  intro fuel
  induction fuel with
  | zero =>
    intro idx depth inside pending acc
    exact ⟨[], by simp [collectVariantsGo]⟩
  | succ f ih =>
    intro idx depth inside pending acc
    rw [collectVariantsGo_step]
    by_cases h1 : idx > endIdx
    · rw [if_pos h1]; exact ⟨[], by simp⟩
    rw [if_neg h1]
    by_cases h2 : (!inside) = true
    · rw [if_pos h2]
      by_cases h3 : hasBrace (lines.getD idx "") = true
      · rw [if_pos h3]; exact ih _ _ _ _ _
      · rw [if_neg h3]; exact ih _ _ _ _ _
    rw [if_neg h2]
    by_cases h4 : pyStartsWith (pyStrip (lines.getD idx "")) "///" = true
    · rw [if_pos h4]; exact ih _ _ _ _ _
    rw [if_neg h4]
    by_cases h5 : pyStartsWith (pyStrip (lines.getD idx "")) "#[" = true
    · rw [if_pos h5]; exact ih _ _ _ _ _
    rw [if_neg h5]
    by_cases h6 : (depth == 1 && !(pyStrip (lines.getD idx "") == "") &&
        !(pyStartsWith (pyStrip (lines.getD idx "")) "//")) = true
    · rw [if_pos h6]
      split
      · next name heq =>
        obtain ⟨t, ht⟩ := ih (idx + (collect_variant_definition lines idx).2)
          (depth + (((lines.drop idx).take
            (collect_variant_definition lines idx).2).map braceNet).sum)
          true []
          (acc ++ [⟨name, idx + 1, pending,
            (collect_variant_definition lines idx).1⟩])
        exact ⟨⟨name, idx + 1, pending,
          (collect_variant_definition lines idx).1⟩ :: t, by
            rw [ht]; simp⟩
      · next heq => exact ih _ _ _ _ _
    · rw [if_neg h6]; exact ih _ _ _ _ _

/-- A line whose stripped form parses as an uppercase-led identifier is not
a doc line, an attribute line, a plain comment, or blank. -/
theorem matchUpper_notMarker (s : String) (name : String)
    (h : matchUpper s = some name) :
    pyStartsWith s "///" = false ∧ pyStartsWith s "#[" = false ∧
    pyStartsWith s "//" = false ∧ (s == "") = false := by
  unfold matchUpper at h
  cases hs : s.toList with
  | nil => rw [hs] at h; exact absurd h (by simp)
  | cons c t =>
    rw [hs] at h
    have h2 : (if isUpperAZ c = true then
        some (String.mk (c :: t.takeWhile isWordChar)) else none) =
        some name := h
    have hup : isUpperAZ c = true := by
      by_contra hne
      have hf : isUpperAZ c = false := by
        revert hne; cases isUpperAZ c <;> simp
      rw [hf] at h2
      exact absurd h2 (by simp)
    have hsl : ('/' == c) = false := by
      cases hbc : ('/' == c) with
      | false => rfl
      | true =>
        rw [← eq_of_beq hbc] at hup
        exact absurd hup (by decide)
    have hsh : ('#' == c) = false := by
      cases hbc : ('#' == c) with
      | false => rfl
      | true =>
        rw [← eq_of_beq hbc] at hup
        exact absurd hup (by decide)
    have hnn : ¬(s = "") := by
      intro he
      rw [he] at hs
      exact absurd hs (by simp)
    unfold pyStartsWith
    rw [hs]
    refine ⟨?_, ?_, ?_, by simpa using hnn⟩
    · rw [show ("///".toList) = ['/', '/', '/'] from rfl]
      simp [List.isPrefixOf, hsl]
    · rw [show ("#[".toList) = ['#', '['] from rfl]
      simp [List.isPrefixOf, hsh]
    · rw [show ("//".toList) = ['/', '/'] from rfl]
      simp [List.isPrefixOf, hsl]

/-- `docRun` grows at the back when the count grows by one. -/
theorem docRun_snoc (lines : List String) :
    ∀ (K b : Nat),
    docRun lines b (K + 1) =
      docRun lines b K ++
        [pyStrip (pyDrop (pyStrip (lines.getD (b + K) "")) 3)] := by
  intro K
  induction K with
  | zero => intro b; simp [docRun]
  | succ k ih =>
    intro b
    rw [docRun, ih (b + 1), docRun]
    simp [Nat.add_assoc, Nat.add_comm 1 k]

/-- Backward doc collection over a contiguous doc run of length `K` whose
top sits on the start of input or on a non-doc non-blank line yields exactly
the `K` stripped entries in top-to-bottom order. -/
theorem collect_leading_doc_run (lines : List String) :
    ∀ (K b : Nat),
    (∀ j < K, pyStartsWith (pyStrip (lines.getD (b + j) "")) "///" = true) →
    (b = 0 ∨ (pyStartsWith (pyStrip (lines.getD (b - 1) "")) "///" = false ∧
      ¬ pyStrip (lines.getD (b - 1) "") = "")) →
    collect_leading_doc lines (b + K) = docRun lines b K := by
  intro K
  induction K with
  | zero =>
    intro b _ hstop
    cases b with
    | zero => rfl
    | succ b2 =>
      rcases hstop with h0 | ⟨hnd, hnb⟩
      · exact absurd h0 (Nat.succ_ne_zero b2)
      · simp only [Nat.add_zero]
        rw [collect_leading_doc_step]
        simp only [Nat.succ_sub_one] at hnd hnb
        rw [if_neg (by rw [hnd]; exact Bool.false_ne_true), if_neg hnb]
        rfl
  | succ k ih =>
    intro b hdoc hstop
    have hk := hdoc k (by omega)
    rw [show b + (k + 1) = (b + k) + 1 from rfl, collect_leading_doc_step,
      if_pos hk, ih b (fun j hj => hdoc j (by omega)) hstop, docRun_snoc]

/-- Inside the enum body at depth 1 with pending buffer `p`, a run of `K`
brace-free doc-comment lines followed by a variant head line emits that
variant with doc `p ++` the `K` stripped entries, in order. -/
theorem collectVariantsGo_docRun (lines : List String) (endIdx : Nat) :
    ∀ (K fuel idx : Nat) (p : List String) (acc : List Variant)
      (name : String),
    (∀ j < K, pyStartsWith (pyStrip (lines.getD (idx + j) "")) "///" = true ∧
      braceNet (lines.getD (idx + j) "") = 0) →
    matchUpper (pyStrip (lines.getD (idx + K) "")) = some name →
    idx + K ≤ endIdx → K + 1 ≤ fuel →
    ∃ t, collectVariantsGo lines endIdx fuel idx 1 true p acc =
      acc ++ ⟨name, idx + K + 1, p ++ docRun lines idx K,
        (collect_variant_definition lines (idx + K)).1⟩ :: t := by
  intro K
  induction K with
  | zero =>
    intro fuel idx p acc name hdoc hm hle hfuel
    obtain ⟨f, rfl⟩ : ∃ f, fuel = f + 1 := ⟨fuel - 1, by omega⟩
    simp only [Nat.add_zero] at hm hle
    obtain ⟨hnd, hna, hns, hne⟩ := matchUpper_notMarker _ _ hm
    rw [collectVariantsGo_step]
    rw [if_neg (by omega : ¬ idx > endIdx)]
    rw [if_neg (by simp : ¬(!true) = true)]
    rw [if_neg (by rw [hnd]; exact Bool.false_ne_true)]
    rw [if_neg (by rw [hna]; exact Bool.false_ne_true)]
    rw [if_pos (by rw [hne, hns]; decide : ((1 : Int) == 1 &&
      !(pyStrip (lines.getD idx "") == "") &&
      !(pyStartsWith (pyStrip (lines.getD idx "")) "//")) = true)]
    obtain ⟨t, ht⟩ := collectVariantsGo_acc lines endIdx f
      (idx + (collect_variant_definition lines idx).2)
      (1 + (((lines.drop idx).take
        (collect_variant_definition lines idx).2).map braceNet).sum)
      true []
      (acc ++ [⟨name, idx + 1, p, (collect_variant_definition lines idx).1⟩])
    refine ⟨t, ?_⟩
    rw [hm]
    exact ht.trans (by simp [docRun])
  | succ k ih =>
    intro fuel idx p acc name hdoc hm hle hfuel
    obtain ⟨f, rfl⟩ : ∃ f, fuel = f + 1 := ⟨fuel - 1, by omega⟩
    obtain ⟨hd0, hb0⟩ := hdoc 0 (by omega)
    simp only [Nat.add_zero] at hd0 hb0
    rw [collectVariantsGo_step]
    rw [if_neg (by omega : ¬ idx > endIdx)]
    rw [if_neg (by simp : ¬(!true) = true)]
    rw [if_pos hd0]
    rw [show (1 : Int) + braceNet (lines.getD idx "") = 1 from by
      rw [hb0]; simp]
    obtain ⟨t, ht⟩ := ih f (idx + 1)
      (p ++ [pyStrip (pyDrop (pyStrip (lines.getD idx "")) 3)]) acc name
      (fun j hj => by
        rw [show idx + 1 + j = idx + (j + 1) from by omega]
        exact hdoc (j + 1) (by omega))
      (by rw [show idx + 1 + k = idx + (k + 1) from by omega]; exact hm)
      (by omega) (by omega)
    refine ⟨t, ?_⟩
    rw [ht]
    have hidx : idx + 1 + k = idx + (k + 1) := by omega
    rw [docRun]
    simp [hidx]

/-- C7: a declaration (respectively a variant) preceded by exactly `K`
contiguous doc-comment lines — the line above the run, if any, being
neither a doc line nor blank (respectively the pending buffer being empty)
— gets exactly the `K` entries, each stripped of the `///` marker and
surrounding whitespace, in original top-to-bottom order. -/
theorem claim_C7 :
    (∀ (lines : List String) (K b : Nat),
      (∀ j < K, pyStartsWith (pyStrip (lines.getD (b + j) "")) "///" = true) →
      (b = 0 ∨ (pyStartsWith (pyStrip (lines.getD (b - 1) "")) "///" = false ∧
        ¬ pyStrip (lines.getD (b - 1) "") = "")) →
      collect_leading_doc lines (b + K) = docRun lines b K) ∧
    (∀ (lines : List String) (endIdx K fuel idx : Nat) (acc : List Variant)
      (name : String),
      (∀ j < K,
        pyStartsWith (pyStrip (lines.getD (idx + j) "")) "///" = true ∧
        braceNet (lines.getD (idx + j) "") = 0) →
      matchUpper (pyStrip (lines.getD (idx + K) "")) = some name →
      idx + K ≤ endIdx → K + 1 ≤ fuel →
      ∃ t, collectVariantsGo lines endIdx fuel idx 1 true [] acc =
        acc ++ ⟨name, idx + K + 1, docRun lines idx K,
          (collect_variant_definition lines (idx + K)).1⟩ :: t) := by
  refine ⟨fun lines K b => collect_leading_doc_run lines K b, ?_⟩
  intro lines endIdx K fuel idx acc name hdoc hm hle hfuel
  obtain ⟨t, ht⟩ := collectVariantsGo_docRun lines endIdx K fuel idx [] acc
    name hdoc hm hle hfuel
  exact ⟨t, by simpa using ht⟩

/-- C7, witness: in `demoDocLines` the declaration gets exactly
`["d1", "d2"]` and variant `V1` gets exactly `["va", "vb"]`, both in source
order. -/
theorem claim_C7_witness :
    collect_leading_doc demoDocLines 2 = docRun demoDocLines 0 2 ∧
    docRun demoDocLines 0 2 = ["d1", "d2"] ∧
    (∃ t, collectVariantsGo demoDocLines 6 3 3 1 true [] [] =
      ⟨"V1", 6, docRun demoDocLines 3 2,
        (collect_variant_definition demoDocLines 5).1⟩ :: t) ∧
    collect_variants demoDocLines 2 6 = [⟨"V1", 6, ["va", "vb"], "V1,"⟩] := by
  refine ⟨claim_C7.1 demoDocLines 2 0 (by decide) (Or.inl rfl), by decide,
    ?_, by decide⟩
  obtain ⟨t, ht⟩ := claim_C7.2 demoDocLines 6 2 3 3 [] "V1" (by decide)
    (by decide) (by decide) (by decide)
  exact ⟨t, by simpa using ht⟩

/-! ## C2 — exactly N variants, independent of payload nesting -/

theorem netSum_nil (f : String → Int) : netSum f [] = 0 := rfl

theorem netSum_cons (f : String → Int) (l : String) (ls : List String) :
    netSum f (l :: ls) = f l + netSum f ls := by
  simp [netSum]

theorem netSum_append (f : String → Int) (a b : List String) :
    netSum f (a ++ b) = netSum f a + netSum f b := by
  simp [netSum]

/-- One iteration of the definition scanner, as an equation. -/
theorem collectVariantDefGo_step (l : String) (rest : List String)
    (b p : Int) (c : Nat) (buf : List String) :
    collectVariantDefGo (l :: rest) b p c buf =
      if (decide (b + braceNet l ≤ 0) && decide (p + parenNet l ≤ 0) &&
          pyEndsWith (pyStrip l) ",") = true then (buf ++ [l], c + 1)
      else collectVariantDefGo rest (b + braceNet l) (p + parenNet l)
        (c + 1) (buf ++ [l]) := rfl

/-- On a line list with the well-formed variant profile — no proper prefix
satisfies the stop condition, the whole is down to `≤ 0` on both counters
with a trailing comma — the definition scanner consumes exactly those lines,
whatever follows them. -/
theorem collectVariantDefGo_exact :
    ∀ (ls : List String) (b p : Int) (c : Nat) (buf rest : List String),
    ls ≠ [] →
    (∀ j, j + 1 < ls.length →
      ¬(b + netSum braceNet (ls.take (j + 1)) ≤ 0 ∧
        p + netSum parenNet (ls.take (j + 1)) ≤ 0 ∧
        pyEndsWith (pyStrip (ls.getD j "")) "," = true)) →
    b + netSum braceNet ls ≤ 0 →
    p + netSum parenNet ls ≤ 0 →
    pyEndsWith (pyStrip ((ls.getLast?).getD "")) "," = true →
    collectVariantDefGo (ls ++ rest) b p c buf = (buf ++ ls, c + ls.length) := by
  intro ls
  induction ls with
  | nil => intro b p c buf rest hne; exact absurd rfl hne
  | cons l ls2 ih =>
    intro b p c buf rest _ hstop hb hp hlast
    cases hls : ls2 with
    | nil =>
      subst hls
      simp only [netSum_cons, netSum_nil] at hb hp
      simp only [List.getLast?] at hlast
      have hcond : (decide (b + braceNet l ≤ 0) &&
          decide (p + parenNet l ≤ 0) &&
          pyEndsWith (pyStrip l) ",") = true := by
        simp only [Bool.and_eq_true, decide_eq_true_eq]
        exact ⟨⟨by omega, by omega⟩, hlast⟩
      simp only [List.singleton_append, collectVariantDefGo, hcond, if_true]
      rfl
    | cons x xs =>
      subst hls
      by_cases hcond : (decide (b + braceNet l ≤ 0) &&
          decide (p + parenNet l ≤ 0) && pyEndsWith (pyStrip l) ",") = true
      · exfalso
        simp only [Bool.and_eq_true, decide_eq_true_eq] at hcond
        refine hstop 0 (by simp) ?_
        simp only [List.take_succ_cons, List.take_zero, netSum_cons,
          netSum_nil, List.getD_cons_zero]
        exact ⟨by omega, by omega, hcond.2⟩
      · rw [show (l :: x :: xs) ++ rest = l :: ((x :: xs) ++ rest) from rfl,
          collectVariantDefGo_step, if_neg hcond]
        rw [ih (b + braceNet l) (p + parenNet l) (c + 1) (buf ++ [l]) rest
          (by simp) ?stop ?hb ?hp ?hlast]
        · simp only [List.append_assoc, List.singleton_append,
            List.length_cons, Prod.mk.injEq]
          exact ⟨trivial, by omega⟩
        case stop =>
          intro j hj
          have h0 := hstop (j + 1) (by simpa using Nat.succ_lt_succ hj)
          simp only [List.take_succ_cons, netSum_cons,
            List.getD_cons_succ] at h0 ⊢
          intro hconj
          obtain ⟨h1, h2, h3⟩ := hconj
          exact h0 ⟨by omega, by omega, h3⟩
        case hb =>
          simp only [netSum_cons] at hb ⊢
          omega
        case hp =>
          simp only [netSum_cons] at hp ⊢
          omega
        case hlast =>
          simpa only [List.getLast?_cons_cons] using hlast

/-- `collect_variant_definition` on a well-formed variant whose lines sit at
`idx` consumes exactly the variant's lines. -/
theorem collect_variant_definition_exact (lines : List String) (idx : Nat)
    (v : RustVariant) (rest : List String) (hwf : variantWF v)
    (hdrop : lines.drop idx = v.defLines ++ rest) :
    collect_variant_definition lines idx =
      (pyStrip (String.intercalate "\n" v.defLines), v.defLines.length) := by
  obtain ⟨hne, _, hstop, hb, hp, hlast, _⟩ := hwf
  have h := collectVariantDefGo_exact v.defLines 0 0 0 [] rest hne
    (fun j hj => by simpa using hstop j hj) (by simp [hb])
    (by simpa using hp) hlast
  simp only [collect_variant_definition, hdrop, h, List.nil_append,
    Nat.zero_add]

/-- One iteration of the block scanner, as an equation. -/
theorem collectBlockGo_step (st : Nat) (l : String) (rest : List String)
    (idx : Nat) (buf : List String) (depth : Int) (started : Bool) :
    collectBlockGo st (l :: rest) idx buf depth started =
      (if ((started || hasBrace l) &&
          decide ((if started = true then depth + braceNet l
            else if hasBrace l = true then depth + braceNet l
            else depth) ≤ 0)) = true
      then (buf ++ [l], idx)
      else collectBlockGo st rest (idx + 1) (buf ++ [l])
        (if started = true then depth + braceNet l
         else if hasBrace l = true then depth + braceNet l else depth)
        (started || hasBrace l)) := rfl

/-- Once counting has started, lines whose running brace total stays
positive are skipped by the block scanner. -/
theorem collectBlockGo_skip :
    ∀ (mid : List String) (st idx : Nat) (buf : List String) (d : Int)
      (rest : List String),
    (∀ j < mid.length, 1 ≤ d + netSum braceNet (mid.take (j + 1))) →
    collectBlockGo st (mid ++ rest) idx buf d true =
      collectBlockGo st rest (idx + mid.length) (buf ++ mid)
        (d + netSum braceNet mid) true := by
  intro mid
  induction mid with
  | nil => intro st idx buf d rest _; simp [netSum_nil]
  | cons l mid2 ih =>
    intro st idx buf d rest hpos
    have h0 := hpos 0 (by simp)
    simp only [List.take_succ_cons, List.take_zero, netSum_cons,
      netSum_nil] at h0
    rw [List.cons_append, collectBlockGo_step]
    rw [if_neg (by simp; omega)]
    refine Eq.trans (ih st (idx + 1) (buf ++ [l]) (d + braceNet l) rest
      ?pos) ?align
    case pos =>
      intro j hj
      have := hpos (j + 1) (by simpa using Nat.succ_lt_succ hj)
      simp only [List.take_succ_cons, netSum_cons] at this
      omega
    case align =>
      rw [show idx + 1 + mid2.length = idx + (l :: mid2).length from by
        simp; omega]
      rw [show (buf ++ [l]) ++ mid2 = buf ++ (l :: mid2) from by simp]
      rw [show d + braceNet l + netSum braceNet mid2 =
        d + netSum braceNet (l :: mid2) from by rw [netSum_cons]; omega]

/-- Past the end index the segmenter returns its accumulator. -/
theorem collectVariantsGo_stop (lines : List String) (endIdx : Nat)
    (fuel idx : Nat) (depth : Int) (inside : Bool) (pending : List String)
    (acc : List Variant) (h : idx > endIdx) :
    collectVariantsGo lines endIdx fuel idx depth inside pending acc = acc := by
  cases fuel with
  | zero => rfl
  | succ f => rw [collectVariantsGo_step, if_pos h]

/-- The head of the dropped suffix is the element at that index. -/
theorem getD_of_drop (lines : List String) (idx : Nat) (l : String)
    (tail : List String) (h : lines.drop idx = l :: tail) :
    lines.getD idx "" = l := by
  have h1 : lines[idx]? = some l := by
    have h2 := List.getElem?_drop lines idx 0
    rw [h, Nat.add_zero] at h2
    simpa using h2.symm
  simp [List.getD, h1]

/-- The concatenated variant lines of well-formed variants have nonnegative
running brace totals and a zero overall total. -/
theorem renderVariants_nonneg :
    ∀ (vs : List RustVariant), (∀ v ∈ vs, variantWF v) →
    (∀ j < (renderVariants vs).length,
      0 ≤ netSum braceNet ((renderVariants vs).take (j + 1))) ∧
    netSum braceNet (renderVariants vs) = 0 := by
  intro vs
  induction vs with
  | nil => intro _; exact ⟨by simp [renderVariants], rfl⟩
  | cons v vs2 ih =>
    intro hwf
    have hvwf := hwf v (List.mem_cons_self v vs2)
    have hrest := fun w hw => hwf w (List.mem_cons_of_mem v hw)
    obtain ⟨ih1, ih2⟩ := ih hrest
    obtain ⟨hne, hhead, hstop, hzero, hpar, hcomma, hpre⟩ := hvwf
    have hflat : renderVariants (v :: vs2) =
        v.defLines ++ renderVariants vs2 := by
      simp [renderVariants]
    rw [hflat]
    constructor
    · intro j hj
      by_cases hjl : j + 1 ≤ v.defLines.length
      · rw [List.take_append_of_le_length hjl]
        exact hpre j (by omega)
      · rw [List.take_append_eq_append_take,
          List.take_of_length_le (by omega), netSum_append]
        have hj2 : j + 1 - v.defLines.length =
            (j - v.defLines.length) + 1 := by omega
        rw [hj2]
        have := ih1 (j - v.defLines.length) (by
          rw [List.length_append] at hj
          omega)
        omega
    · rw [netSum_append, hzero, ih2]
      rfl

/-- The block scanner on a rendered enum shape: brace-opening header line,
body with nonnegative running totals summing to zero, lone closing brace.
The block ends exactly at the closing line, and the captured text is the
whole-stripped join of all the lines. -/
theorem collect_block_of_shape (header : String) (body : List String)
    (hhb : hasBrace header = true) (hb1 : braceNet header = 1)
    (hpos : ∀ j < body.length, 0 ≤ netSum braceNet (body.take (j + 1)))
    (hzero : netSum braceNet body = 0) :
    collect_block (header :: (body ++ ["\x7d"])) 0 =
      (pyStrip (String.intercalate "\n" (header :: (body ++ ["\x7d"]))),
        body.length + 1) := by
  have h1 : collectBlockGo 0 (header :: (body ++ ["\x7d"])) 0 [] 0 false =
      collectBlockGo 0 (body ++ ["\x7d"]) 1 [header] 1 true := by
    rw [collectBlockGo_step]
    rw [if_neg (by
      simp only [hhb, Bool.or_true, Bool.true_and, decide_eq_true_eq]
      intro hcon
      split at hcon
      · omega
      · split at hcon
        · rw [hb1] at hcon; omega
        · simp [hhb] at *)]
    rw [if_neg (by simp : ¬(false = true)), if_pos hhb, hb1, hhb]
    norm_num
  have h2 : collectBlockGo 0 (body ++ ["\x7d"]) 1 [header] 1 true =
      collectBlockGo 0 ["\x7d"] (1 + body.length) ([header] ++ body)
        (1 + netSum braceNet body) true := by
    exact collectBlockGo_skip body 0 1 [header] 1 ["\x7d"]
      (fun j hj => by have := hpos j hj; omega)
  have h3 : collectBlockGo 0 ["\x7d"] (1 + body.length) ([header] ++ body)
      (1 + netSum braceNet body) true =
      (([header] ++ body) ++ ["\x7d"], 1 + body.length) := by
    rw [collectBlockGo_step]
    rw [if_pos (by
      rw [hzero]
      simp only [if_pos rfl, Bool.true_or, Bool.true_and,
        decide_eq_true_eq]
      show (1 : Int) + 0 + braceNet "\x7d" ≤ 0
      decide)]
  unfold collect_block
  rw [List.drop_zero, h1, h2, h3]
  simp [Nat.add_comm]

/-- Running the segmenter at depth 1 over the rendered lines of well-formed
variants followed by the closing brace appends exactly one record per
variant, in declaration order. -/
theorem collectVariantsGo_render (lines : List String) (endIdx : Nat) :
    ∀ (vs : List RustVariant) (idx fuel : Nat) (acc : List Variant),
    (∀ v ∈ vs, variantWF v) →
    lines.drop idx = renderVariants vs ++ ["\x7d"] →
    endIdx = idx + (renderVariants vs).length →
    (renderVariants vs).length + 1 ≤ fuel →
    (collectVariantsGo lines endIdx fuel idx 1 true [] acc).map
        (fun w => w.name) =
      acc.map (fun w => w.name) ++ vs.map (fun v => v.name) := by
  intro vs
  induction vs with
  | nil =>
    intro idx fuel acc _ hdrop hend hfuel
    obtain ⟨f, rfl⟩ : ∃ f, fuel = f + 1 := ⟨fuel - 1, by omega⟩
    have hflatnil : renderVariants ([] : List RustVariant) = [] := rfl
    rw [hflatnil, List.nil_append] at hdrop
    rw [hflatnil] at hend
    simp only [List.length_nil, Nat.add_zero] at hend
    have hl := getD_of_drop lines idx "\x7d" [] hdrop
    rw [collectVariantsGo_step]
    rw [if_neg (by omega : ¬ idx > endIdx)]
    rw [if_neg (by simp : ¬(!true) = true)]
    rw [hl]
    rw [if_neg (by decide : ¬ pyStartsWith (pyStrip "\x7d") "///" = true)]
    rw [if_neg (by decide : ¬ pyStartsWith (pyStrip "\x7d") "#[" = true)]
    rw [if_pos (by decide : ((1 : Int) == 1 && !(pyStrip "\x7d" == "") &&
      !(pyStartsWith (pyStrip "\x7d") "//")) = true)]
    have hfin : collectVariantsGo lines endIdx f (idx + 1)
        (1 + braceNet "\x7d") true [] acc = acc :=
      collectVariantsGo_stop lines endIdx f (idx + 1) (1 + braceNet "\x7d")
        true [] acc (by omega)
    have hres : (collectVariantsGo lines endIdx f (idx + 1)
        (1 + braceNet "\x7d") true [] acc).map (fun w => w.name) =
        acc.map (fun w => w.name) ++
          List.map (fun v => v.name) ([] : List RustVariant) := by
      rw [hfin]
      simp
    exact hres
  | cons v vs2 ih =>
    intro idx fuel acc hwf hdrop hend hfuel
    have hvwf := hwf v (List.mem_cons_self v vs2)
    have hrest := fun w hw => hwf w (List.mem_cons_of_mem v hw)
    obtain ⟨hd, tl, hdl⟩ := List.exists_cons_of_ne_nil hvwf.1
    have hflat : renderVariants (v :: vs2) =
        v.defLines ++ renderVariants vs2 := by
      simp [renderVariants]
    rw [hflat] at hdrop hend hfuel
    rw [List.append_assoc] at hdrop
    have hlen1 : 1 ≤ v.defLines.length := by rw [hdl]; simp
    have hlenapp : (v.defLines ++ renderVariants vs2).length =
        v.defLines.length + (renderVariants vs2).length :=
      List.length_append v.defLines (renderVariants vs2)
    obtain ⟨f, rfl⟩ : ∃ f, fuel = f + 1 :=
      ⟨fuel - 1, by rw [hlenapp] at hfuel; omega⟩
    have hgd : lines.getD idx "" = hd :=
      getD_of_drop lines idx hd
        (tl ++ (renderVariants vs2 ++ ["\x7d"])) (by rw [hdrop, hdl]; rfl)
    have hm : matchUpper (pyStrip hd) = some v.name := by
      have h := hvwf.2.1
      rw [hdl] at h
      simpa using h
    obtain ⟨hnd, hna, hns, hnee⟩ := matchUpper_notMarker _ _ hm
    have hcvd := collect_variant_definition_exact lines idx v
      (renderVariants vs2 ++ ["\x7d"]) hvwf hdrop
    have hsum : (((lines.drop idx).take
        (collect_variant_definition lines idx).2).map braceNet).sum = 0 := by
      simp only [hcvd]
      rw [hdrop, List.take_left]
      exact hvwf.2.2.2.1
    rw [collectVariantsGo_step]
    rw [if_neg (by rw [hend, hlenapp]; omega : ¬ idx > endIdx)]
    rw [if_neg (by simp : ¬(!true) = true)]
    rw [hgd]
    rw [if_neg (by rw [hnd]; exact Bool.false_ne_true)]
    rw [if_neg (by rw [hna]; exact Bool.false_ne_true)]
    rw [if_pos (by rw [hnee, hns]; decide)]
    rw [hm]
    show (collectVariantsGo lines endIdx f
      (idx + (collect_variant_definition lines idx).2)
      (1 + (((lines.drop idx).take
        (collect_variant_definition lines idx).2).map braceNet).sum)
      true []
      (acc ++ [⟨v.name, idx + 1, [],
        (collect_variant_definition lines idx).1⟩])).map (fun w => w.name) =
      acc.map (fun w => w.name) ++ (v :: vs2).map (fun w => w.name)
    rw [hsum]
    simp only [hcvd]
    have hdrop2 : lines.drop (idx + v.defLines.length) =
        renderVariants vs2 ++ ["\x7d"] := by
      rw [← List.drop_drop v.defLines.length idx lines, hdrop,
        List.drop_left]
    have hend2 : endIdx = (idx + v.defLines.length) +
        (renderVariants vs2).length := by
      rw [hend, hlenapp]; omega
    have hfuel2 : (renderVariants vs2).length + 1 ≤ f := by
      rw [hlenapp] at hfuel; omega
    have hIH := ih (idx + v.defLines.length) f
      (acc ++ [⟨v.name, idx + 1, [],
        pyStrip (String.intercalate "\n" v.defLines)⟩])
      hrest hdrop2 hend2 hfuel2
    rw [show (1 : Int) + 0 = 1 from rfl]
    exact hIH.trans (by simp)

/-- The rendered header both contains an opening brace and has net brace
count one, provided the enum name itself is brace-free. -/
theorem renderHeader_facts (ename : String)
    (h1 : ename.toList.count '{' = 0) (h2 : ename.toList.count '}' = 0) :
    hasBrace ("pub enum " ++ ename ++ " \x7b") = true ∧
    braceNet ("pub enum " ++ ename ++ " \x7b") = 1 := by
  have htl : ("pub enum " ++ ename ++ " \x7b").toList =
      "pub enum ".toList ++ (ename.toList ++ " \x7b".toList) := by
    show ("pub enum " ++ ename ++ " \x7b").data =
      "pub enum ".data ++ (ename.data ++ " \x7b".data)
    rw [String.data_append, String.data_append, List.append_assoc]
  constructor
  · unfold hasBrace
    rw [htl]
    exact List.elem_eq_true_of_mem (by simp)
  · unfold braceNet
    rw [htl]
    rw [List.count_append, List.count_append, List.count_append,
      List.count_append, h1, h2]
    rw [show ("pub enum ".toList.count '{') = 0 from by decide,
      show ("pub enum ".toList.count '}') = 0 from by decide,
      show (" \x7b".toList.count '{') = 1 from by decide,
      show (" \x7b".toList.count '}') = 0 from by decide]
    decide

/-- C2: for a conventionally rendered enum declaration with `N` well-formed
variants — each with arbitrary nested braces and parentheses in its payload
subject only to balance — the block extractor ends the block at its closing
line and variant segmentation returns exactly `N` variant records carrying
the variant names in declaration order. -/
theorem claim_C2 (ename : String) (vs : List RustVariant)
    (h1 : ename.toList.count '{' = 0) (h2 : ename.toList.count '}' = 0)
    (hwf : ∀ v ∈ vs, variantWF v) :
    (collect_block (renderEnum ename vs) 0).2 =
      (renderEnum ename vs).length - 1 ∧
    (collect_variants (renderEnum ename vs) 0
        ((collect_block (renderEnum ename vs) 0).2)).map (fun w => w.name) =
      vs.map (fun v => v.name) ∧
    (collect_variants (renderEnum ename vs) 0
        ((collect_block (renderEnum ename vs) 0).2)).length = vs.length := by
  obtain ⟨hhb, hb1⟩ := renderHeader_facts ename h1 h2
  obtain ⟨hpos, hzero⟩ := renderVariants_nonneg vs hwf
  have hblock := collect_block_of_shape ("pub enum " ++ ename ++ " \x7b")
    (renderVariants vs) hhb hb1 hpos hzero
  have hb2 : (collect_block (renderEnum ename vs) 0).2 =
      (renderVariants vs).length + 1 := by
    rw [show renderEnum ename vs = ("pub enum " ++ ename ++ " \x7b") ::
      (renderVariants vs ++ ["\x7d"]) from rfl, hblock]
  have hlen : (renderEnum ename vs).length =
      (renderVariants vs).length + 2 := by
    simp [renderEnum]
  have hmap : (collect_variants (renderEnum ename vs) 0
      ((collect_block (renderEnum ename vs) 0).2)).map (fun w => w.name) =
      vs.map (fun v => v.name) := by
    rw [hb2]
    unfold collect_variants
    have hstep : collectVariantsGo (renderEnum ename vs)
        ((renderVariants vs).length + 1)
        ((renderVariants vs).length + 1 + 1 - 0) 0 0 false [] [] =
        collectVariantsGo (renderEnum ename vs)
          ((renderVariants vs).length + 1)
          ((renderVariants vs).length + 1) 1 1 true [] [] := by
      rw [show (renderVariants vs).length + 1 + 1 - 0 =
        ((renderVariants vs).length + 1) + 1 from rfl]
      rw [collectVariantsGo_step]
      rw [if_neg (by omega : ¬ 0 > (renderVariants vs).length + 1)]
      rw [if_pos (by simp : (!false) = true)]
      rw [show (renderEnum ename vs).getD 0 "" =
        ("pub enum " ++ ename ++ " \x7b") from rfl]
      rw [if_pos hhb, hb1]
      norm_num
    rw [hstep]
    have hr := collectVariantsGo_render (renderEnum ename vs)
      ((renderVariants vs).length + 1) vs 1
      ((renderVariants vs).length + 1) [] hwf
      (by simp [renderEnum]) (by omega) (by omega)
    simpa using hr
  refine ⟨by rw [hb2, hlen]; omega, hmap, ?_⟩
  have hl2 : (collect_variants (renderEnum ename vs) 0
      ((collect_block (renderEnum ename vs) 0).2)).length =
      ((collect_variants (renderEnum ename vs) 0
        ((collect_block (renderEnum ename vs) 0).2)).map
          (fun w => w.name)).length := (List.length_map _ _).symm
  rw [hl2, hmap, List.length_map]

/-- C2, witness: `OrderEvent` with a nested-parenthesis tuple variant and a
multi-line struct variant segments into exactly the two variants, in
order. -/
theorem claim_C2_witness :
    (collect_block (renderEnum "OrderEvent" demoNestedVs) 0).2 =
      (renderEnum "OrderEvent" demoNestedVs).length - 1 ∧
    (collect_variants (renderEnum "OrderEvent" demoNestedVs) 0
        ((collect_block (renderEnum "OrderEvent" demoNestedVs) 0).2)).map
        (fun w => w.name) = ["Created", "Cancelled"] ∧
    collect_variants (renderEnum "OrderEvent" demoNestedVs) 0 5 =
      [⟨"Created", 2, [], "Created(OrderId, Vec<(u8, u8)>),"⟩,
       ⟨"Cancelled", 3, [], "Cancelled \x7b\n    reason: String,\n\x7d,"⟩] := by
  have h := claim_C2 "OrderEvent" demoNestedVs (by decide) (by decide) ?hwf
  case hwf =>
    intro v hv
    rcases List.mem_cons.mp hv with rfl | hv2
    · unfold variantWF
      refine ⟨by decide, by decide, ?_, by decide, by decide, by decide,
        by decide⟩
      intro j hj
      exfalso
      simp only [List.length_cons, List.length_nil] at hj
      omega
    · rcases List.mem_cons.mp hv2 with rfl | hv3
      · unfold variantWF
        refine ⟨by decide, by decide, ?_, by decide, by decide, by decide,
          by decide⟩
        intro j hj
        simp only [List.length_cons, List.length_nil] at hj
        have hj2 : j = 0 ∨ j = 1 := by omega
        rcases hj2 with rfl | rfl <;> decide
      · exact absurd hv3 (List.not_mem_nil v)
  exact ⟨h.1, h.2.1.trans (by decide), by decide⟩
